import Mathlib

/-!
Verification development for the mtg_top_cards deck-analysis core
(src/main.rs).  The Rust functions are shallowly embedded: strings are
Lean `String`/`List Char` (Rust `to_lowercase`/`is_whitespace` are
modelled on their ASCII behaviour, which covers the data the claims are
about), `i64` is `Int` (with Rust's truncated division `Int.tdiv`),
`u32` parsing keeps its overflow failure, `f64` arithmetic is idealised
over the reals, and `HashMap` state is modelled by association lists
with the map's key-identity semantics (exact string keys; `entry(..)+=`
accumulates under the existing key, `insert` overwrites).  File I/O and
JSON decoding are modelled by an `Option DecklistFile` argument where
`none` stands for an unreadable or malformed file.
-/

namespace MtgTop

/-- ASCII lowercasing of a string, modelling Rust `str::to_lowercase` on
ASCII data. -/
def lowerStr (s : String) : String := String.mk (s.data.map Char.toLower)

/-- Byte-wise lexicographic strict comparison on character lists, modelling the
`Ord` instance Rust uses for `String::cmp`. -/
def lexLtB : List Char → List Char → Bool
  | [], [] => false
  | [], _ :: _ => true
  | _ :: _, [] => false
  | a :: xs, b :: ys => if a < b then true else if b < a then false else lexLtB xs ys

/-- Substring test, modelling Rust `str::contains` with a string pattern. -/
def containsSub (needle : List Char) : List Char → Bool
  | [] => needle.isEmpty
  | c :: rest => needle.isPrefixOf (c :: rest) || containsSub needle rest

/-- The `Card` record from the source: a copy count and a card name. -/
structure Card where
  count : Nat
  name : String
  deriving DecidableEq

/-- The `Tournament` metadata from the source. -/
structure Tournament where
  format : Option String
  name : Option String
  date : Option String
  deriving DecidableEq

/-- The `Deck` record from the source; either board may be absent. -/
structure Deck where
  player : Option String
  result : Option String
  url : Option String
  mainboard : Option (List Card)
  sideboard : Option (List Card)
  deriving DecidableEq

/-- A `DecklistFile`: one decoded record file. -/
structure DecklistFile where
  tournament : Tournament
  decks : Option (List Deck)
  deriving DecidableEq

/-- A `CardCriterion`: a parsed search criterion. -/
structure CardCriterion where
  name : String
  count : Option Nat
  deriving DecidableEq

/-- A `CardMatchInfo`: per-criterion found counts reported on a match. -/
structure CardMatchInfo where
  name : String
  requested : Option Nat
  found_main : Nat
  found_side : Nat
  deriving DecidableEq

/-- A `DeckMatch`: a matching deck with its tournament context. -/
structure DeckMatch where
  tournament : Tournament
  file_date : List Char
  player : Option String
  result : Option String
  url : Option String
  mainboard : List Card
  sideboard : List Card
  matched_cards : List CardMatchInfo
  deriving DecidableEq

/-- One face of a Scryfall card entry. -/
structure ScryfallCardFace where
  name : String
  deriving DecidableEq

/-- A Scryfall bulk-data card entry (the fields the resolver reads). -/
structure ScryfallCard where
  name : Option String
  layout : Option String
  card_faces : Option (List ScryfallCardFace)
  deriving DecidableEq

/-- Numeric value of an ASCII digit character. -/
def digitVal (c : Char) : Nat := c.toNat - 48

/-- ASCII decimal digit test (`char::is_ascii_digit` / regex `\d` on the
ASCII data the corpus paths contain). -/
def isDigitC (c : Char) : Bool := 48 ≤ c.toNat && c.toNat ≤ 57

/-- Attempt to match the date pattern `/(\d{4})/(\d{2})/(\d{2})/` at the head of
the character list, returning the three captured numbers. -/
def matchDateAt : List Char → Option (Nat × Nat × Nat)
  | '/' :: y1 :: y2 :: y3 :: y4 :: '/' :: m1 :: m2 :: '/' :: d1 :: d2 :: '/' :: _ =>
    if isDigitC y1 && isDigitC y2 && isDigitC y3 && isDigitC y4 && isDigitC m1 && isDigitC m2
        && isDigitC d1 && isDigitC d2 then
      some (((digitVal y1 * 10 + digitVal y2) * 10 + digitVal y3) * 10 + digitVal y4,
        digitVal m1 * 10 + digitVal m2, digitVal d1 * 10 + digitVal d2)
    else none
  | _ => none

/-- The function `extract_date_from_path`: leftmost match of the date regex in the path. -/
def extract_date_from_path : List Char → Option (Nat × Nat × Nat)
  | [] => none
  | c :: rest =>
    match matchDateAt (c :: rest) with
    | some t => some t
    | none => extract_date_from_path rest

/-- The function `days_since_epoch` from the source: the deliberately approximate linear
formula.  Rust `i64` division truncates toward zero, hence `Int.tdiv`. -/
def days_since_epoch (year month day : Int) : Int :=
  (year - 1970) * 365 + (year - 1969).tdiv 4 + (month - 1) * 30 + day

/-- Zero-padded `k`-digit decimal rendering, most significant digit first;
models Rust `format!` zero-pad width specifiers for numbers below `10 ^ k`. -/
def padNum : Nat → Nat → List Char
  | 0, _ => []
  | k + 1, n => Nat.digitChar (n / 10 ^ k) :: padNum k (n % 10 ^ k)

/-- The `file_date` string `YYYY-MM-DD` built in `search_file_for_decks`. -/
def formatDate (y m d : Nat) : List Char :=
  padNum 4 y ++ '-' :: (padNum 2 m ++ '-' :: padNum 2 d)

/-- The weight computation in `process_file`: `2^(-age/half_life)` when
weighting is enabled, else `1.0`.  `f64` is idealised as a real number. -/
noncomputable def decayWeight (useWeight : Bool) (age : Int) (halfLife : Real) : Real :=
  if useWeight then (2 : Real) ^ (-(age : Real) / halfLife) else 1

/-- Both-ends whitespace trim, modelling `str::trim` (ASCII whitespace). -/
def trimChars (s : List Char) : List Char :=
  ((s.dropWhile Char.isWhitespace).reverse.dropWhile Char.isWhitespace).reverse

/-- The leading digit-run scan loop of `parse_card_criterion`: returns the
digit run and the remaining characters. -/
def takeNumStr : List Char → List Char × List Char
  | [] => ([], [])
  | c :: rest =>
    if isDigitC c then
      let p := takeNumStr rest
      (c :: p.1, p.2)
    else ([], c :: rest)

/-- Rust `str::parse::<u32>` on a non-empty all-digit run: succeeds exactly
when the decimal value fits in 32 bits. -/
def parseU32 (ds : List Char) : Option Nat :=
  let n := ds.foldl (fun a c => a * 10 + digitVal c) 0
  if n < 2 ^ 32 then some n else none

/-- The function `parse_card_criterion` from the source. -/
def parse_card_criterion (input : String) : CardCriterion :=
  let t := trimChars input.data
  let p := takeNumStr t
  if p.1.isEmpty then ⟨String.mk t, none⟩
  else
    let nm := p.2.dropWhile Char.isWhitespace
    if nm.isEmpty then ⟨String.mk t, none⟩
    else ⟨String.mk nm, parseU32 p.1⟩

/-- Association-list model of `HashMap` `entry(k).or_insert(zero) += v`: the
key's first occurrence is kept and accumulates; a new key is appended. -/
def insertAdd {β : Type} [Add β] : List (String × β) → String → β → List (String × β)
  | [], k, v => [(k, v)]
  | (k', v') :: rest, k, v =>
    if k' = k then (k', v' + v) :: rest else (k', v') :: insertAdd rest k v

/-- Association-list lookup (first matching key), modelling `HashMap::get`. -/
def lookupMap {β : Type} : List (String × β) → String → Option β
  | [], _ => none
  | (k', v) :: rest, k => if k' = k then some v else lookupMap rest k

/-- The lookup `map.get(&k).copied().unwrap_or(0)` from `deck_matches_criteria`. -/
def lookupCount (m : List (String × Nat)) (k : String) : Nat :=
  (lookupMap m k).getD 0

/-- The per-board lowercased-name-to-summed-count map built in
`deck_matches_criteria`. -/
def buildCounts (board : Option (List Card)) : List (String × Nat) :=
  (board.getD []).foldl (fun m c => insertAdd m (lowerStr c.name) c.count) []

/-- The per-criterion pass/fail test of `deck_matches_criteria`: the found
total is the mainboard count plus, when requested, the sideboard count; a
specified count requires equality (exact) or at-least (otherwise), an
unspecified count requires presence. -/
def criterionOk (mc sc : List (String × Nat)) (exact includeSideboard : Bool)
    (c : CardCriterion) : Bool :=
  let nl := lowerStr c.name
  let total := if includeSideboard then lookupCount mc nl + lookupCount sc nl
    else lookupCount mc nl
  match c.count with
  | some required => if exact then total == required else decide (required ≤ total)
  | none => decide (0 < total)

/-- The criteria loop of `deck_matches_criteria`: any unsatisfied criterion
returns `none`; otherwise the per-criterion infos are collected in order. -/
def checkCriteria (mc sc : List (String × Nat)) (exact includeSideboard : Bool) :
    List CardCriterion → Option (List CardMatchInfo)
  | [] => some []
  | c :: rest =>
    if criterionOk mc sc exact includeSideboard c then
      (checkCriteria mc sc exact includeSideboard rest).map
        (fun l => ⟨c.name, c.count, lookupCount mc (lowerStr c.name),
          lookupCount sc (lowerStr c.name)⟩ :: l)
    else none

/-- The function `deck_matches_criteria` from the source. -/
def deck_matches_criteria (deck : Deck) (criteria : List CardCriterion)
    (exact includeSideboard : Bool) : Option (List CardMatchInfo) :=
  checkCriteria (buildCounts deck.mainboard) (buildCounts deck.sideboard)
    exact includeSideboard criteria

/-- The format filter: the record's lowercased format must contain some
lowercased requested pattern as a substring. -/
def formatOk (formatPatterns : List String) (fmt : String) : Bool :=
  formatPatterns.any (fun p => containsSub (lowerStr p).data (lowerStr fmt).data)

/-- The function `search_file_for_decks` from the source.  `content` models the result of
opening and JSON-decoding the file (`none` = unreadable or malformed). -/
def search_file_for_decks (path : List Char) (content : Option DecklistFile)
    (formatPatterns : List String) (today maxAge : Int)
    (criteria : List CardCriterion) (exact includeSideboard : Bool) : List DeckMatch :=
  match extract_date_from_path path with
  | none => []
  | some (y, mo, dy) =>
    let fileDays := days_since_epoch (y : Int) (mo : Int) (dy : Int)
    let age := today - fileDays
    if age > maxAge then []
    else
      let fileDate := formatDate y mo dy
      match content with
      | none => []
      | some data =>
        match data.tournament.format with
        | none => []
        | some f =>
          if formatOk formatPatterns f then
            (data.decks.getD []).filterMap (fun deck =>
              (deck_matches_criteria deck criteria exact includeSideboard).map (fun mc =>
                ⟨data.tournament, fileDate, deck.player, deck.result, deck.url,
                  deck.mainboard.getD [], deck.sideboard.getD [], mc⟩))
          else []

/-- The per-board accumulation loop of `process_file`: each card adds
`count * weight` to its running total under its exact-case name. -/
noncomputable def addBoard (m : List (String × Real)) (board : Option (List Card))
    (weight : Real) : List (String × Real) :=
  (board.getD []).foldl (fun acc c => insertAdd acc c.name ((c.count : Real) * weight)) m

/-- The function `process_file` from the source: date extraction, age gate, decay weight,
format gate, then per-deck accumulation into the per-file map. -/
noncomputable def process_file (path : List Char) (content : Option DecklistFile)
    (formatPatterns : List String) (today : Int) (halfLife : Real) (maxAge : Int)
    (useWeight : Bool) : List (String × Real) :=
  match extract_date_from_path path with
  | none => []
  | some (y, mo, dy) =>
    let age := today - days_since_epoch (y : Int) (mo : Int) (dy : Int)
    if age > maxAge then []
    else
      let weight := decayWeight useWeight age halfLife
      match content with
      | none => []
      | some data =>
        match data.tournament.format with
        | none => []
        | some f =>
          if formatOk formatPatterns f then
            (data.decks.getD []).foldl
              (fun m dk => addBoard (addBoard m dk.mainboard weight) dk.sideboard weight) []
          else []

/-- The reduce step of `run_top_cards`: fold one per-file map into the
accumulator, summing by exact key. -/
def mergeMaps {β : Type} [Add β] (acc m : List (String × β)) : List (String × β) :=
  m.foldl (fun a p => insertAdd a p.1 p.2) acc

/-- Observer: the total weight stored under an exact key (summing across any
duplicate entries of that key). -/
def weightOf {β : Type} [Add β] [Zero β] (m : List (String × β)) (k : String) : β :=
  ((m.filter (fun p => p.1 == k)).map Prod.snd).sum

/-- The fixed set of layouts recognised as having back faces. -/
def recognizedLayouts : List String := ["transform", "modal_dfc", "reversible_card"]

/-- Rust `HashMap::insert` overwrite semantics on an association list. -/
def insertBF : List (String × String) → String → String → List (String × String)
  | [], k, v => [(k, v)]
  | (k', v') :: rest, k, v =>
    if k' = k then (k, v) :: rest else (k', v') :: insertBF rest k v

/-- The loop body of `load_back_faces_from_cache`: a card whose layout is in
the recognised set and that declares at least two faces inserts its first face
name mapped to its second face name; every other card is skipped. -/
def bfStep (bf : List (String × String)) (card : ScryfallCard) : List (String × String) :=
  match card.layout with
  | none => bf
  | some l =>
    if l ∈ recognizedLayouts then
      match card.card_faces with
      | some (f0 :: f1 :: _) => insertBF bf f0.name f1.name
      | _ => bf
    else bf

/-- The function `load_back_faces_from_cache` from the source: the decoded bulk-data card
list is folded into a front-face-name to back-face-name index. -/
def load_back_faces_from_cache (cards : List ScryfallCard) : List (String × String) :=
  cards.foldl bfStep []

/-- The loop body of the back-face expansion in `run_top_cards`: push the
ranked card, then its indexed back face (with the same weight) if it has
one. -/
noncomputable def expandStep (backFaces : List (String × String))
    (acc : List (String × Real)) (p : String × Real) : List (String × Real) :=
  match lookupMap backFaces p.1 with
  | some b => acc ++ [p, (b, p.2)]
  | none => acc ++ [p]

/-- The back-face expansion loop of `run_top_cards`. -/
noncomputable def expandBackFaces (backFaces : List (String × String))
    (top : List (String × Real)) : List (String × Real) :=
  top.foldl (expandStep backFaces) []

/-- The final stage of `run_top_cards` after the weight sort: truncate to the
top `topN`, then expand back faces.  The `f64` comparator sort is abstracted:
`sorted` stands for the descending-sorted ranked list. -/
noncomputable def run_top_cards_output (backFaces : List (String × String))
    (sorted : List (String × Real)) (topN : Nat) : List (String × Real) :=
  expandBackFaces backFaces (sorted.take topN)

/-- Modelled from the spec: the expansion described pointwise — each ranked
card is kept, and a card with an indexed back face is immediately followed by
that back face carrying the same weight. -/
noncomputable def expandSpec (backFaces : List (String × String)) :
    List (String × Real) → List (String × Real)
  | [] => []
  | p :: rest =>
    match lookupMap backFaces p.1 with
    | some b => p :: (b, p.2) :: expandSpec backFaces rest
    | none => p :: expandSpec backFaces rest

/-- Spec-side found count: the case-insensitively summed copy count of a
(lowercased) card name over a board. -/
def specFound (board : Option (List Card)) (k : String) : Nat :=
  (((board.getD []).filter (fun c => lowerStr c.name == k)).map Card.count).sum

/-- Spec-side criterion satisfaction (the wording of claim C1). -/
def criterionSatisfied (deck : Deck) (exact includeSideboard : Bool)
    (c : CardCriterion) : Prop :=
  let found := specFound deck.mainboard (lowerStr c.name) +
    (if includeSideboard then specFound deck.sideboard (lowerStr c.name) else 0)
  match c.count with
  | none => 0 < found
  | some required => if exact then found = required else required ≤ found

/-- Chronological (lexicographic) order on date triples. -/
def chronLt (a b : Nat × Nat × Nat) : Prop :=
  a.1 < b.1 ∨ (a.1 = b.1 ∧ (a.2.1 < b.2.1 ∨ (a.2.1 = b.2.1 ∧ a.2.2 < b.2.2)))

/-- Eligibility of a metadata entry to contribute a front-to-back mapping:
recognised layout and at least two declared faces, first two used. -/
def eligibleEntry (c : ScryfallCard) (k v : String) : Prop :=
  ∃ l, c.layout = some l ∧ l ∈ recognizedLayouts ∧
    ∃ f0 f1 rest, c.card_faces = some (f0 :: f1 :: rest) ∧ f0.name = k ∧ f1.name = v

/-- The comparator of `run_search_decks`: sorted order requires each earlier
entry's date to be no smaller than each later one (date descending). -/
def dateGe (a b : DeckMatch) : Prop := lexLtB a.file_date b.file_date = false

instance : DecidableRel dateGe := fun a b =>
  inferInstanceAs (Decidable (lexLtB a.file_date b.file_date = false))

/-- The `run_search_decks` post-processing: stable sort by derived date
descending, then truncate to the requested maximum count. -/
def searchSortTrunc (ms : List DeckMatch) (num : Nat) : List DeckMatch :=
  (ms.insertionSort dateGe).take num

/-- Concrete deck used by witnesses. -/
def demoDeck : Deck :=
  ⟨some "Alice", some "1st", none, some [⟨4, "Lightning Bolt"⟩, ⟨20, "Mountain"⟩],
    some [⟨2, "Blood Moon"⟩]⟩

/-- Concrete criteria list used by witnesses. -/
def demoCriteria : List CardCriterion := [⟨"lightning bolt", some 4⟩]

/-- Concrete Scryfall metadata used by witnesses. -/
def demoScry : List ScryfallCard :=
  [⟨some "Delver of Secrets // Insectile Aberration", some "transform",
    some [⟨"Delver of Secrets"⟩, ⟨"Insectile Aberration"⟩]⟩]

/-! ## Theorems -/

/-- C8: `days_since_epoch` equals the deliberately approximate linear formula:
365 days per year, a leap correction every 4 years via truncated integer
division, and 30 days per month.  It is not a calendar-accurate day count:
January 31 and February 1 of the same year receive the same day number. -/
theorem C8_days_since_epoch_formula :
    (∀ year month day : Int, days_since_epoch year month day =
      (year - 1970) * 365 + (year - 1969).tdiv 4 + (month - 1) * 30 + day) ∧
    days_since_epoch 2025 1 31 = days_since_epoch 2025 2 1 :=
  ⟨fun _ _ _ => rfl, by decide⟩

/-- C9: a file whose bytes fail to decode as a well-formed record, or that
cannot be opened (both modelled by `content = none`), contributes an empty map
to the ranking aggregation and no matches to the deck search, for every path
and configuration — a malformed record never aborts the run. -/
theorem C9_malformed_record_empty (path : List Char) (formatPatterns : List String)
    (today : Int) (halfLife : Real) (maxAge : Int) (useWeight : Bool)
    (criteria : List CardCriterion) (exact includeSideboard : Bool) :
    process_file path none formatPatterns today halfLife maxAge useWeight = [] ∧
    search_file_for_decks path none formatPatterns today maxAge criteria exact
      includeSideboard = [] := by
  constructor
  · unfold process_file
    split
    · rfl
    · dsimp only
      exact ite_self []
  · unfold search_file_for_decks
    split
    · rfl
    · dsimp only
      exact ite_self []

/-- C4: a path with no `/YYYY/MM/DD/` segment, or a derived age exceeding
`max_age`, reduces both the ranking aggregation (`process_file`) and the deck
search (`search_file_for_decks`) to an empty contribution, regardless of the
file's content or format. -/
theorem C4_no_date_or_too_old_empty (path : List Char) (content : Option DecklistFile)
    (formatPatterns : List String) (today : Int) (halfLife : Real) (maxAge : Int)
    (useWeight : Bool) (criteria : List CardCriterion) (exact includeSideboard : Bool) :
    (extract_date_from_path path = none →
      process_file path content formatPatterns today halfLife maxAge useWeight = [] ∧
      search_file_for_decks path content formatPatterns today maxAge criteria exact
        includeSideboard = []) ∧
    (∀ y mo dy : Nat, extract_date_from_path path = some (y, mo, dy) →
      today - days_since_epoch (y : Int) (mo : Int) (dy : Int) > maxAge →
      process_file path content formatPatterns today halfLife maxAge useWeight = [] ∧
      search_file_for_decks path content formatPatterns today maxAge criteria exact
        includeSideboard = []) := by
  constructor
  · intro h
    constructor
    · unfold process_file
      rw [h]
    · unfold search_file_for_decks
      rw [h]
  · intro y mo dy h hage
    constructor
    · unfold process_file
      rw [h]
      dsimp only
      rw [if_pos hage]
    · unfold search_file_for_decks
      rw [h]
      dsimp only
      rw [if_pos hage]

/-- C4 witness: a dateless path contributes nothing, and a dated path far in
the past contributes nothing when today is far beyond the cutoff. -/
theorem C4_witness :
    (extract_date_from_path ("nodate.json").data = none ∧
      process_file ("nodate.json").data none [] 0 1 0 true = []) ∧
    (extract_date_from_path ("/x/2020/01/01/a.json").data = some (2020, 1, 1) ∧
      search_file_for_decks ("/x/2020/01/01/a.json").data none [] 1000000 0 [] false
        false = []) := by
  have h1 := (C4_no_date_or_too_old_empty ("nodate.json").data none [] 0 1 0 true []
    false false).1
  have h2 := (C4_no_date_or_too_old_empty ("/x/2020/01/01/a.json").data none [] 1000000 1 0
    true [] false false).2 2020 1 1
  exact ⟨⟨by decide, (h1 (by decide)).1⟩, ⟨by decide, (h2 (by decide) (by decide)).2⟩⟩

theorem lookupCount_insertAdd (m : List (String × Nat)) (k k' : String) (v : Nat) :
    lookupCount (insertAdd m k v) k' = lookupCount m k' + if k = k' then v else 0 := by
  induction m with
  | nil =>
    by_cases h : k = k' <;> simp [insertAdd, lookupCount, lookupMap, h]
  | cons a rest ih =>
    obtain ⟨k0, v0⟩ := a
    by_cases h1 : k0 = k <;> by_cases h2 : k0 = k' <;> by_cases h3 : k = k' <;>
      simp_all [insertAdd, lookupCount, lookupMap]

theorem lookupCount_foldl_board (cs : List Card) (m : List (String × Nat)) (k : String) :
    lookupCount (cs.foldl (fun acc c => insertAdd acc (lowerStr c.name) c.count) m) k =
      lookupCount m k + ((cs.filter (fun c => lowerStr c.name == k)).map Card.count).sum := by
  induction cs generalizing m with
  | nil => simp
  | cons c cs ih =>
    rw [List.foldl_cons, ih, lookupCount_insertAdd]
    by_cases h : lowerStr c.name = k
    · simp [List.filter_cons, h]
      omega
    · simp [List.filter_cons, h]

theorem lookupCount_buildCounts (board : Option (List Card)) (k : String) :
    lookupCount (buildCounts board) k = specFound board k := by
  unfold buildCounts specFound
  rw [lookupCount_foldl_board]
  simp [lookupCount, lookupMap]

theorem criterionOk_iff (deck : Deck) (exact includeSideboard : Bool) (c : CardCriterion) :
    (criterionOk (buildCounts deck.mainboard) (buildCounts deck.sideboard) exact
      includeSideboard c = true) ↔ criterionSatisfied deck exact includeSideboard c := by
  unfold criterionOk criterionSatisfied
  simp only [lookupCount_buildCounts]
  cases hc : c.count with
  | none => cases includeSideboard <;> simp
  | some required => cases includeSideboard <;> cases exact <;> simp

theorem checkCriteria_isSome (mc sc : List (String × Nat)) (exact includeSideboard : Bool)
    (cs : List CardCriterion) :
    (checkCriteria mc sc exact includeSideboard cs).isSome = true ↔
      ∀ c ∈ cs, criterionOk mc sc exact includeSideboard c = true := by
  induction cs with
  | nil => simp [checkCriteria]
  | cons c cs ih =>
    by_cases h : criterionOk mc sc exact includeSideboard c = true
    · simp [checkCriteria, h, ih]
    · simp [checkCriteria, h]

/-- C1: for every deck and every non-empty criteria list,
`deck_matches_criteria` returns a match exactly when every criterion is
satisfied (AND semantics), where a criterion's found count is the
case-insensitively summed mainboard count plus the sideboard count when
sideboard inclusion is requested, and a criterion is satisfied exactly when
either no count was specified and found > 0, or a count was specified and
found = required (exact flag) or found ≥ required (otherwise); any
unsatisfied criterion makes the whole deck a non-match. -/
theorem C1_deck_matching_and_semantics (deck : Deck) (criteria : List CardCriterion)
    (exact includeSideboard : Bool) (_hne : criteria ≠ []) :
    (deck_matches_criteria deck criteria exact includeSideboard).isSome = true ↔
      ∀ c ∈ criteria, criterionSatisfied deck exact includeSideboard c := by
  unfold deck_matches_criteria
  rw [checkCriteria_isSome]
  constructor
  · intro h c hc
    exact (criterionOk_iff deck exact includeSideboard c).mp (h c hc)
  · intro h c hc
    exact (criterionOk_iff deck exact includeSideboard c).mpr (h c hc)

/-- C1 witness: the equivalence applied to a concrete deck and the concrete
non-empty criteria list "4 lightning bolt". -/
theorem C1_witness :
    demoCriteria ≠ [] ∧
      ((deck_matches_criteria demoDeck demoCriteria false false).isSome = true ↔
        ∀ c ∈ demoCriteria, criterionSatisfied demoDeck false false c) :=
  ⟨by decide, C1_deck_matching_and_semantics demoDeck demoCriteria false false (by decide)⟩

theorem weightOf_cons (k0 : String) (v0 : Real) (rest : List (String × Real)) (k : String) :
    weightOf ((k0, v0) :: rest) k = (if k0 = k then v0 else 0) + weightOf rest k := by
  by_cases h : k0 = k <;> simp [weightOf, List.filter_cons, h]

theorem weightOf_insertAdd (m : List (String × Real)) (k k' : String) (v : Real) :
    weightOf (insertAdd m k v) k' = weightOf m k' + if k = k' then v else 0 := by
  induction m with
  | nil =>
    by_cases h : k = k' <;> simp [insertAdd, weightOf, List.filter_cons, h]
  | cons a rest ih =>
    obtain ⟨k0, v0⟩ := a
    by_cases h1 : k0 = k
    · subst h1
      by_cases h3 : k0 = k'
      · subst h3
        simp [insertAdd, weightOf_cons]
        try ring
      · simp [insertAdd, weightOf_cons, h3]
        try ring
    · by_cases h3 : k0 = k'
      · subst h3
        simp [insertAdd, h1, weightOf_cons, ih]
        try ring
      · simp [insertAdd, h1, weightOf_cons, h3, ih]
        try ring

theorem weightOf_mergeMaps (acc m : List (String × Real)) (k : String) :
    weightOf (mergeMaps acc m) k = weightOf acc k + weightOf m k := by
  induction m generalizing acc with
  | nil => simp [mergeMaps, weightOf]
  | cons p rest ih =>
    obtain ⟨k0, v0⟩ := p
    show weightOf (mergeMaps (insertAdd acc k0 v0) rest) k = _
    rw [ih, weightOf_insertAdd, weightOf_cons]
    ring

theorem insertAdd_keys (m : List (String × Real)) (k : String) (v : Real) :
    (insertAdd m k v).map Prod.fst =
      if k ∈ m.map Prod.fst then m.map Prod.fst else m.map Prod.fst ++ [k] := by
  induction m with
  | nil => simp [insertAdd]
  | cons a rest ih =>
    obtain ⟨k0, v0⟩ := a
    by_cases h : k0 = k
    · subst h
      simp [insertAdd]
    · simp only [insertAdd, if_neg h, List.map_cons, ih]
      by_cases h2 : k ∈ rest.map Prod.fst <;>
        simp [h2, List.mem_cons, Ne.symm h]

/-- C6 counterexample: two occurrences of the same card name differing only in
capitalization ("Foo" and "FOO") are NOT accumulated under a single key by the
run_top_cards merge: the merged map keeps both distinct exact-case keys. -/
theorem C6_counterexample_case_sensitive_merge :
    (mergeMaps [("Foo", (1 : Real))] [("FOO", (1 : Real))]).map Prod.fst = ["Foo", "FOO"] ∧
    lowerStr "FOO" = lowerStr "Foo" := by
  constructor
  · rfl
  · rfl

/-- C6 amended: the merge accumulates occurrences by exact, case-sensitive
string key — for every exact key the merged total is the sum of both maps'
totals for that key, and an insertion preserves the existing key list (the
first-seen exact casing keeps its entry) when the exact key is already
present, appending the new key otherwise.  Differing capitalizations of a name
are therefore kept as distinct keys, not unified. -/
theorem C6_merge_exact_case_keys (acc m : List (String × Real)) (k : String) :
    weightOf (mergeMaps acc m) k = weightOf acc k + weightOf m k ∧
    ∀ (m2 : List (String × Real)) (k2 : String) (v : Real),
      (insertAdd m2 k2 v).map Prod.fst =
        if k2 ∈ m2.map Prod.fst then m2.map Prod.fst else m2.map Prod.fst ++ [k2] :=
  ⟨weightOf_mergeMaps acc m k, fun m2 k2 v => insertAdd_keys m2 k2 v⟩

/-- C2 counterexample: a record dated 45 days in the future has age -45, which
still passes the age cutoff (-45 is not greater than the default max_age of
1825), yet its decay weight at half-life 45 is 2 — outside (0, 1]. -/
theorem C2_counterexample_negative_age :
    ¬ ((-45 : Int) > (1825 : Int)) ∧ decayWeight true (-45) 45 = 2 ∧
      ¬ (decayWeight true (-45) 45 ≤ 1) := by
  have h2 : decayWeight true (-45) 45 = 2 := by
    unfold decayWeight
    rw [if_pos rfl]
    have he : (-((-45 : Int) : Real) / 45) = 1 := by
      push_cast
      norm_num
    rw [he, Real.rpow_one]
  refine ⟨by decide, h2, ?_⟩
  rw [h2]
  norm_num

/-- C2 amended: for every NON-NEGATIVE integer age and positive half-life, the
decay weight with weighting enabled equals 2^(-age/half_life), lies in (0,1],
equals 1 at age 0, equals 1/2 at age = half_life, and is strictly decreasing
in age (the last three without the non-negativity restriction); with weighting
disabled the weight is 1 for any age.  (The original claim's "(0,1]" fails for
negative ages, which the age cutoff does not exclude.) -/
theorem C2_decay_model (halfLife : Real) (hh : 0 < halfLife) :
    (∀ age : Int, 0 ≤ age →
      0 < decayWeight true age halfLife ∧ decayWeight true age halfLife ≤ 1) ∧
    decayWeight true 0 halfLife = 1 ∧
    (∀ age : Int, (age : Real) = halfLife → decayWeight true age halfLife = 1 / 2) ∧
    (∀ a b : Int, a < b →
      decayWeight true b halfLife < decayWeight true a halfLife) ∧
    (∀ age : Int, decayWeight false age halfLife = 1) := by
  have hunfold : ∀ age : Int,
      decayWeight true age halfLife = (2 : Real) ^ (-(age : Real) / halfLife) := by
    intro age
    unfold decayWeight
    rw [if_pos rfl]
  refine ⟨?_, ?_, ?_, ?_, ?_⟩
  · intro age hage
    rw [hunfold]
    constructor
    · exact Real.rpow_pos_of_pos (by norm_num) _
    · apply Real.rpow_le_one_of_one_le_of_nonpos (by norm_num)
      apply div_nonpos_of_nonpos_of_nonneg
      · simpa using (Int.cast_nonneg.mpr hage : (0 : Real) ≤ (age : Real))
      · exact le_of_lt hh
  · rw [hunfold]
    norm_num
  · intro age hage
    rw [hunfold, hage, neg_div, div_self (ne_of_gt hh), Real.rpow_neg_one]
    norm_num
  · intro a b hab
    rw [hunfold, hunfold]
    apply (Real.rpow_lt_rpow_left_iff (by norm_num)).mpr
    apply div_lt_div_of_pos_right ?_ hh
    have : (a : Real) < (b : Real) := by exact_mod_cast hab
    linarith
  · intro age
    unfold decayWeight
    simp

/-- C2 witness: the amended decay model properties at the concrete half-life 45. -/
theorem C2_witness :
    (0 : Real) < 45 ∧
      ((∀ age : Int, 0 ≤ age →
        0 < decayWeight true age 45 ∧ decayWeight true age 45 ≤ 1) ∧
      decayWeight true 0 45 = 1 ∧
      (∀ age : Int, (age : Real) = 45 → decayWeight true age 45 = 1 / 2) ∧
      (∀ a b : Int, a < b → decayWeight true b 45 < decayWeight true a 45) ∧
      (∀ age : Int, decayWeight false age 45 = 1)) :=
  ⟨by norm_num, C2_decay_model 45 (by norm_num)⟩

theorem takeNumStr_eq (l : List Char) :
    takeNumStr l = (l.takeWhile isDigitC, l.dropWhile isDigitC) := by
  induction l with
  | nil => rfl
  | cons c rest ih =>
    by_cases h : isDigitC c <;>
      simp [takeNumStr, List.takeWhile_cons, List.dropWhile_cons, h, ih]

theorem trimChars_getLast_not_ws (s : List Char) (h : trimChars s ≠ []) :
    ((trimChars s).getLast h).isWhitespace = false := by
  unfold trimChars at *
  rw [List.getLast_reverse]
  exact List.head_dropWhile_not _ _ _

theorem dropWhile_ws_ne_nil_of_trim (s : List Char)
    (h : (trimChars s).dropWhile isDigitC ≠ []) :
    ((trimChars s).dropWhile isDigitC).dropWhile Char.isWhitespace ≠ [] := by
  intro hnil
  rw [List.dropWhile_eq_nil_iff] at hnil
  have ht : trimChars s ≠ [] := by
    intro h0
    apply h
    rw [h0]
    rfl
  have hB : (trimChars s).getLast? =
      ((trimChars s).dropWhile isDigitC).getLast? := by
    conv_lhs => rw [← List.takeWhile_append_dropWhile isDigitC (trimChars s)]
    rw [List.getLast?_append, List.getLast?_eq_getLast _ h]
    rfl
  have hlast_eq : (trimChars s).getLast ht =
      ((trimChars s).dropWhile isDigitC).getLast h := by
    have h1 := List.getLast?_eq_getLast (trimChars s) ht
    have h2 := List.getLast?_eq_getLast ((trimChars s).dropWhile isDigitC) h
    rw [h1, h2] at hB
    exact Option.some.inj hB
  have hws := hnil _ (List.getLast_mem h)
  have hnw := trimChars_getLast_not_ws s ht
  rw [hlast_eq] at hnw
  rw [hnw] at hws
  exact absurd hws (by decide)

/-- C3 counterexample: for the input "4294967296 x" the leading digit run is
non-empty and followed by a non-digit character, yet the parsed criterion has
NO required count (not 4294967296): the number overflows u32, so Rust's
parse::<u32>().ok() yields None while the name is still taken from the
remainder. -/
theorem C3_counterexample_u32_overflow :
    parse_card_criterion "4294967296 x" = ⟨"x", none⟩ ∧
    (trimChars ("4294967296 x").data).takeWhile isDigitC ≠ [] ∧
    (trimChars ("4294967296 x").data).dropWhile isDigitC ≠ [] :=
  ⟨by decide, by decide, by decide⟩

/-- C3 amended: criterion parsing scans the trimmed input for a leading run of
decimal digits; if that run is non-empty and is followed by at least one
non-digit character, the parsed criterion has the leading number as its
required count WHEN IT FITS IN A 32-BIT UNSIGNED INTEGER (and no count
otherwise) and, as its name, the remainder after skipping one run of
whitespace; otherwise the entire trimmed input is the name and the count is
absent.  The three examples of the claim are unchanged. -/
theorem C3_parse_card_criterion_amended (input : String) :
    (parse_card_criterion input =
      if (trimChars input.data).takeWhile isDigitC ≠ [] ∧
          (trimChars input.data).dropWhile isDigitC ≠ [] then
        ⟨String.mk (((trimChars input.data).dropWhile isDigitC).dropWhile Char.isWhitespace),
          parseU32 ((trimChars input.data).takeWhile isDigitC)⟩
      else ⟨String.mk (trimChars input.data), none⟩) ∧
    parse_card_criterion "4 Lightning Bolt" = ⟨"Lightning Bolt", some 4⟩ ∧
    parse_card_criterion "Lightning Bolt" = ⟨"Lightning Bolt", none⟩ ∧
    parse_card_criterion "" = ⟨"", none⟩ := by
  refine ⟨?_, by decide, by decide, by decide⟩
  simp only [parse_card_criterion, takeNumStr_eq]
  by_cases h1 : (trimChars input.data).takeWhile isDigitC = []
  · simp [h1]
  · by_cases h2 : (trimChars input.data).dropWhile isDigitC = []
    · simp [h1, h2]
    · have h3 := dropWhile_ws_ne_nil_of_trim input.data h2
      simp [h1, h2, h3]

theorem lookupMap_insertBF (m : List (String × String)) (k k' v : String) :
    lookupMap (insertBF m k v) k' = if k = k' then some v else lookupMap m k' := by
  induction m with
  | nil => by_cases h : k = k' <;> simp [insertBF, lookupMap, h]
  | cons a rest ih =>
    obtain ⟨k0, v0⟩ := a
    by_cases h1 : k0 = k
    · subst h1
      by_cases h2 : k0 = k' <;> simp [insertBF, lookupMap, h2]
    · have h1' : k ≠ k0 := fun hh => h1 hh.symm
      by_cases h2 : k0 = k'
      · subst h2
        simp [insertBF, lookupMap, h1, h1']
      · simp [insertBF, lookupMap, h1, h2, ih]

theorem lookupMap_bfStep (bf : List (String × String)) (card : ScryfallCard)
    (k v : String) (h : lookupMap (bfStep bf card) k = some v) :
    lookupMap bf k = some v ∨ eligibleEntry card k v := by
  unfold bfStep at h
  cases hl : card.layout with
  | none =>
    rw [hl] at h
    exact Or.inl h
  | some l =>
    rw [hl] at h
    dsimp only at h
    by_cases hrec : l ∈ recognizedLayouts
    · rw [if_pos hrec] at h
      cases hf : card.card_faces with
      | none =>
        rw [hf] at h
        exact Or.inl h
      | some faces =>
        rw [hf] at h
        rcases faces with _ | ⟨f0, _ | ⟨f1, rest⟩⟩
        · exact Or.inl h
        · exact Or.inl h
        · dsimp only at h
          rw [lookupMap_insertBF] at h
          by_cases hk : f0.name = k
          · rw [if_pos hk] at h
            exact Or.inr ⟨l, hl, hrec, f0, f1, rest, hf, hk, Option.some.inj h⟩
          · rw [if_neg hk] at h
            exact Or.inl h
    · rw [if_neg hrec] at h
      exact Or.inl h

theorem load_fold_sound (cards : List ScryfallCard) (acc : List (String × String))
    (k v : String) (h : lookupMap (cards.foldl bfStep acc) k = some v) :
    lookupMap acc k = some v ∨ ∃ c ∈ cards, eligibleEntry c k v := by
  induction cards generalizing acc with
  | nil => exact Or.inl h
  | cons c cs ih =>
    rw [List.foldl_cons] at h
    rcases ih (bfStep acc c) h with h1 | ⟨c', hc', he⟩
    · rcases lookupMap_bfStep acc c k v h1 with h2 | h2
      · exact Or.inl h2
      · exact Or.inr ⟨c, List.mem_cons_self c cs, h2⟩
    · exact Or.inr ⟨c', List.mem_cons_of_mem _ hc', he⟩

theorem foldl_expandStep (bf : List (String × String)) (l : List (String × Real))
    (acc : List (String × Real)) :
    l.foldl (expandStep bf) acc = acc ++ expandSpec bf l := by
  induction l generalizing acc with
  | nil => simp [expandSpec]
  | cons p rest ih =>
    rw [List.foldl_cons, ih]
    cases hl : lookupMap bf p.1 <;>
      simp [expandStep, expandSpec, hl, List.append_assoc]

/-- C7: the back-face index maps a front-face name to a back-face name only
for metadata entries whose layout tag is in the fixed recognised set
(transform, modal_dfc, reversible_card) and that declare at least two faces
(the first two, front to back); and the expansion of the truncated top-N list
appends, for each card with an indexed back face, that back face immediately
after the card with the same weight, leaving all other cards unchanged. -/
theorem C7_back_face_index_and_expansion (cards : List ScryfallCard)
    (top : List (String × Real)) :
    (∀ k v, lookupMap (load_back_faces_from_cache cards) k = some v →
      ∃ c ∈ cards, eligibleEntry c k v) ∧
    expandBackFaces (load_back_faces_from_cache cards) top =
      expandSpec (load_back_faces_from_cache cards) top := by
  constructor
  · intro k v h
    unfold load_back_faces_from_cache at h
    rcases load_fold_sound cards [] k v h with h1 | h2
    · exact absurd h1 (by simp [lookupMap])
    · exact h2
  · unfold expandBackFaces
    rw [foldl_expandStep]
    rfl

/-- C7 witness: the index built from a concrete transform card maps its front
face to its back face, and that mapping indeed comes from an eligible entry. -/
theorem C7_witness :
    lookupMap (load_back_faces_from_cache demoScry) "Delver of Secrets" =
        some "Insectile Aberration" ∧
      ∃ c ∈ demoScry, eligibleEntry c "Delver of Secrets" "Insectile Aberration" :=
  ⟨by rfl, (C7_back_face_index_and_expansion demoScry []).1 "Delver of Secrets"
    "Insectile Aberration" (by rfl)⟩

theorem expandSpec_length (bf : List (String × String)) (l : List (String × Real)) :
    (expandSpec bf l).length =
      l.length + l.countP (fun p => (lookupMap bf p.1).isSome) := by
  induction l with
  | nil => simp [expandSpec]
  | cons p rest ih =>
    cases hl : lookupMap bf p.1 <;>
      simp [expandSpec, hl, ih, List.countP_cons] <;> omega

/-- C10: back-face expansion is applied after truncation to top_n and no
truncation is re-applied, so when at least top_n cards were ranked the final
output length equals top_n plus the number of truncated top-N cards that have
an indexed back face — possibly more than top_n entries, and at most
2·top_n. -/
theorem C10_output_length_after_expansion (backFaces : List (String × String))
    (sorted : List (String × Real)) (topN : Nat) (h : topN ≤ sorted.length) :
    (run_top_cards_output backFaces sorted topN).length =
        topN + (sorted.take topN).countP (fun p => (lookupMap backFaces p.1).isSome) ∧
      topN ≤ (run_top_cards_output backFaces sorted topN).length ∧
      (run_top_cards_output backFaces sorted topN).length ≤ 2 * topN := by
  have he : run_top_cards_output backFaces sorted topN =
      expandSpec backFaces (sorted.take topN) := by
    unfold run_top_cards_output expandBackFaces
    rw [foldl_expandStep]
    rfl
  have hlen : (sorted.take topN).length = topN := by
    rw [List.length_take]
    omega
  have hcount : (sorted.take topN).countP
      (fun p => (lookupMap backFaces p.1).isSome) ≤ (sorted.take topN).length :=
    List.countP_le_length _
  rw [hlen] at hcount
  rw [he, expandSpec_length, hlen]
  exact ⟨rfl, by omega, by omega⟩

/-- C10 witness: with top_n = 1 over a two-card ranked list whose top card has
an indexed back face, the final output has 1 + 1 = 2 entries, more than top_n
and within 2·top_n. -/
theorem C10_witness :
    (1 : Nat) ≤ ([("Delver of Secrets", (4 : Real)), ("Mountain", 2)]).length ∧
      ((run_top_cards_output (load_back_faces_from_cache demoScry)
            [("Delver of Secrets", (4 : Real)), ("Mountain", 2)] 1).length =
          1 + (([("Delver of Secrets", (4 : Real)), ("Mountain", 2)].take 1).countP
            (fun p => (lookupMap (load_back_faces_from_cache demoScry) p.1).isSome)) ∧
        1 ≤ (run_top_cards_output (load_back_faces_from_cache demoScry)
            [("Delver of Secrets", (4 : Real)), ("Mountain", 2)] 1).length ∧
        (run_top_cards_output (load_back_faces_from_cache demoScry)
            [("Delver of Secrets", (4 : Real)), ("Mountain", 2)] 1).length ≤ 2 * 1) :=
  ⟨by simp, C10_output_length_after_expansion (load_back_faces_from_cache demoScry)
    [("Delver of Secrets", (4 : Real)), ("Mountain", 2)] 1 (by simp)⟩

theorem nat_lt_of_div_lt (p a b : Nat) (h : a / p < b / p) : a < b := by
  by_contra hc
  push_neg at hc
  exact Nat.lt_irrefl _ (Nat.lt_of_lt_of_le h (Nat.div_le_div_right hc))

theorem nat_lt_of_div_eq_mod_lt (p a b : Nat) (h1 : a / p = b / p)
    (h2 : a % p < b % p) : a < b := by
  have ha := Nat.div_add_mod a p
  have hb := Nat.div_add_mod b p
  rw [h1] at ha
  generalize hq : p * (b / p) = q at ha hb
  generalize hma : a % p = ma at ha h2
  generalize hmb : b % p = mb at hb h2
  omega

theorem nat_div_lt_cases (p a b : Nat) (_hp : 0 < p) (h : a < b) :
    a / p < b / p ∨ (a / p = b / p ∧ a % p < b % p) := by
  rcases Nat.lt_trichotomy (a / p) (b / p) with h1 | h1 | h1
  · exact Or.inl h1
  · refine Or.inr ⟨h1, ?_⟩
    have ha := Nat.div_add_mod a p
    have hb := Nat.div_add_mod b p
    rw [h1] at ha
    generalize hq : p * (b / p) = q at ha hb
    generalize hma : a % p = ma at ha ⊢
    generalize hmb : b % p = mb at hb ⊢
    omega
  · have := nat_lt_of_div_lt p b a h1
    omega

theorem digitChar_lt_iff : ∀ a < 10, ∀ b < 10,
    (Nat.digitChar a < Nat.digitChar b ↔ a < b) := by decide

theorem digitChar_inj_iff : ∀ a < 10, ∀ b < 10,
    (Nat.digitChar a = Nat.digitChar b ↔ a = b) := by decide

theorem padNum_length (k n : Nat) : (padNum k n).length = k := by
  induction k generalizing n with
  | zero => rfl
  | succ k ih => simp [padNum, ih]

theorem div_pow_lt_ten (k a : Nat) (h : a < 10 ^ (k + 1)) : a / 10 ^ k < 10 := by
  apply (Nat.div_lt_iff_lt_mul (pow_pos (by norm_num) k)).mpr
  rw [mul_comm, ← pow_succ]
  exact h

theorem lexLtB_cons (a b : Char) (xs ys : List Char) :
    lexLtB (a :: xs) (b :: ys) =
      if a < b then true else if b < a then false else lexLtB xs ys := rfl

theorem lexLtB_padNum (k a b : Nat) (ha : a < 10 ^ k) (hb : b < 10 ^ k) :
    (lexLtB (padNum k a) (padNum k b) = true ↔ a < b) := by
  induction k generalizing a b with
  | zero =>
    simp only [pow_zero, Nat.lt_one_iff] at ha hb
    subst ha
    subst hb
    simp [padNum, lexLtB]
  | succ k ih =>
    have hda := div_pow_lt_ten k a ha
    have hdb := div_pow_lt_ten k b hb
    have hpk : 0 < 10 ^ k := pow_pos (by norm_num) k
    have hma : a % 10 ^ k < 10 ^ k := Nat.mod_lt _ hpk
    have hmb : b % 10 ^ k < 10 ^ k := Nat.mod_lt _ hpk
    rw [padNum, padNum, lexLtB_cons]
    rcases Nat.lt_trichotomy (a / 10 ^ k) (b / 10 ^ k) with h1 | h1 | h1
    · rw [if_pos ((digitChar_lt_iff _ hda _ hdb).mpr h1)]
      simp only [true_iff]
      exact nat_lt_of_div_lt _ a b h1
    · have hdeq : Nat.digitChar (a / 10 ^ k) = Nat.digitChar (b / 10 ^ k) :=
        (digitChar_inj_iff _ hda _ hdb).mpr h1
      have hirr : ¬ Nat.digitChar (b / 10 ^ k) < Nat.digitChar (b / 10 ^ k) :=
        fun hcon => absurd ((digitChar_lt_iff _ hdb _ hdb).mp hcon) (lt_irrefl _)
      rw [hdeq, if_neg hirr, if_neg hirr, ih _ _ hma hmb]
      constructor
      · intro h2
        exact nat_lt_of_div_eq_mod_lt _ a b h1 h2
      · intro h2
        rcases nat_div_lt_cases (10 ^ k) a b hpk h2 with h3 | h3
        · rw [h1] at h3
          exact absurd h3 (lt_irrefl _)
        · exact h3.2
    · have hnot : ¬ Nat.digitChar (a / 10 ^ k) < Nat.digitChar (b / 10 ^ k) := by
        intro hcon
        have := (digitChar_lt_iff _ hda _ hdb).mp hcon
        omega
      rw [if_neg hnot, if_pos ((digitChar_lt_iff _ hdb _ hda).mpr h1)]
      constructor
      · intro h2
        exact absurd h2 (by decide)
      · intro h2
        have := nat_lt_of_div_lt (10 ^ k) b a h1
        omega

theorem padNum_inj (k a b : Nat) (ha : a < 10 ^ k) (hb : b < 10 ^ k)
    (h : padNum k a = padNum k b) : a = b := by
  induction k generalizing a b with
  | zero =>
    simp only [pow_zero, Nat.lt_one_iff] at ha hb
    omega
  | succ k ih =>
    rw [padNum, padNum] at h
    injection h with h1 h2
    have hda := div_pow_lt_ten k a ha
    have hdb := div_pow_lt_ten k b hb
    have hpk : 0 < 10 ^ k := pow_pos (by norm_num) k
    have hd : a / 10 ^ k = b / 10 ^ k := (digitChar_inj_iff _ hda _ hdb).mp h1
    have hm : a % 10 ^ k = b % 10 ^ k := ih _ _ (Nat.mod_lt _ hpk) (Nat.mod_lt _ hpk) h2
    calc a = 10 ^ k * (a / 10 ^ k) + a % 10 ^ k := (Nat.div_add_mod a (10 ^ k)).symm
      _ = 10 ^ k * (b / 10 ^ k) + b % 10 ^ k := by rw [hd, hm]
      _ = b := Nat.div_add_mod b (10 ^ k)

theorem padNum_eq_iff (k a b : Nat) (ha : a < 10 ^ k) (hb : b < 10 ^ k) :
    padNum k a = padNum k b ↔ a = b :=
  ⟨padNum_inj k a b ha hb, fun h => h ▸ rfl⟩

theorem lexLtB_cons_same (c : Char) (xs ys : List Char) :
    lexLtB (c :: xs) (c :: ys) = lexLtB xs ys := by
  rw [lexLtB_cons, if_neg (lt_irrefl c), if_neg (lt_irrefl c)]

theorem lexLtB_append_iff : ∀ (xs ys us vs : List Char), xs.length = ys.length →
    (lexLtB (xs ++ us) (ys ++ vs) = true ↔
      lexLtB xs ys = true ∨ (xs = ys ∧ lexLtB us vs = true)) := by
  intro xs
  induction xs with
  | nil =>
    intro ys us vs hlen
    cases ys with
    | nil => simp [lexLtB]
    | cons y ys => simp at hlen
  | cons x xs ih =>
    intro ys us vs hlen
    cases ys with
    | nil => simp at hlen
    | cons y ys =>
      simp only [List.length_cons, Nat.add_right_cancel_iff] at hlen
      rw [List.cons_append, List.cons_append, lexLtB_cons, lexLtB_cons]
      by_cases h1 : x < y
      · simp [h1]
      · by_cases h2 : y < x
        · have hne : x ≠ y := fun he => absurd (he ▸ h2) (lt_irrefl _)
          simp [h1, h2, hne]
        · have he : x = y := le_antisymm (not_lt.mp h2) (not_lt.mp h1)
          subst he
          simp only [if_neg h1, List.cons.injEq, true_and]
          rw [ih ys us vs hlen]

theorem lexLtB_asymm (xs : List Char) : ∀ ys, lexLtB xs ys = true → lexLtB ys xs = false := by
  induction xs with
  | nil =>
    intro ys h
    cases ys with
    | nil => exact absurd h (by decide)
    | cons y ys => rfl
  | cons x xs ih =>
    intro ys h
    cases ys with
    | nil => exact absurd h (by simp [lexLtB])
    | cons y ys =>
      rw [lexLtB_cons] at h ⊢
      by_cases h1 : x < y
      · rw [if_neg (asymm h1), if_pos h1]
      · by_cases h2 : y < x
        · rw [if_neg h1, if_pos h2] at h
          exact absurd h (by decide)
        · rw [if_neg h1, if_neg h2] at h
          rw [if_neg h2, if_neg h1]
          exact ih ys h

theorem lexLtB_trans (xs : List Char) : ∀ ys zs, lexLtB xs ys = true →
    lexLtB ys zs = true → lexLtB xs zs = true := by
  induction xs with
  | nil =>
    intro ys zs h1 h2
    cases zs with
    | nil =>
      cases ys with
      | nil => exact h2
      | cons y ys => exact absurd h2 (by simp [lexLtB])
    | cons z zs => rfl
  | cons x xs ih =>
    intro ys zs h1 h2
    cases ys with
    | nil => exact absurd h1 (by simp [lexLtB])
    | cons y ys =>
      cases zs with
      | nil => exact absurd h2 (by simp [lexLtB])
      | cons z zs =>
        rw [lexLtB_cons] at h1 h2 ⊢
        by_cases hxy : x < y
        · by_cases hyz : y < z
          · rw [if_pos (lt_trans hxy hyz)]
          · by_cases hzy : z < y
            · rw [if_neg hyz, if_pos hzy] at h2
              exact absurd h2 (by decide)
            · have he : y = z := le_antisymm (not_lt.mp hzy) (not_lt.mp hyz)
              rw [if_pos (he ▸ hxy)]
        · by_cases hyx : y < x
          · rw [if_neg hxy, if_pos hyx] at h1
            exact absurd h1 (by decide)
          · have he : x = y := le_antisymm (not_lt.mp hyx) (not_lt.mp hxy)
            subst he
            rw [if_neg (lt_irrefl x), if_neg (lt_irrefl x)] at h1
            by_cases hxz : x < z
            · rw [if_pos hxz]
            · by_cases hzx : z < x
              · rw [if_neg hxz, if_pos hzx] at h2
                exact absurd h2 (by decide)
              · have he2 : x = z := le_antisymm (not_lt.mp hzx) (not_lt.mp hxz)
                subst he2
                rw [if_neg (lt_irrefl x), if_neg (lt_irrefl x)] at h2
                rw [if_neg (lt_irrefl x), if_neg (lt_irrefl x)]
                exact ih ys zs h1 h2

theorem lexLtB_conn (xs : List Char) : ∀ ys, lexLtB xs ys = false →
    lexLtB ys xs = false → xs = ys := by
  induction xs with
  | nil =>
    intro ys h1 h2
    cases ys with
    | nil => rfl
    | cons y ys => exact absurd h1 (by simp [lexLtB])
  | cons x xs ih =>
    intro ys h1 h2
    cases ys with
    | nil => exact absurd h2 (by simp [lexLtB])
    | cons y ys =>
      rw [lexLtB_cons] at h1 h2
      by_cases hxy : x < y
      · rw [if_pos hxy] at h1
        exact absurd h1 (by decide)
      · by_cases hyx : y < x
        · rw [if_pos hyx] at h2
          exact absurd h2 (by decide)
        · have he : x = y := le_antisymm (not_lt.mp hyx) (not_lt.mp hxy)
          subst he
          rw [if_neg (lt_irrefl x), if_neg (lt_irrefl x)] at h1 h2
          rw [ih ys h1 h2]

theorem dateGe_total (a b : DeckMatch) : dateGe a b ∨ dateGe b a := by
  unfold dateGe
  cases hab : lexLtB a.file_date b.file_date with
  | false => exact Or.inl rfl
  | true => exact Or.inr (lexLtB_asymm _ _ hab)

theorem dateGe_trans (a b c : DeckMatch) (hab : dateGe a b) (hbc : dateGe b c) :
    dateGe a c := by
  unfold dateGe at *
  cases hac : lexLtB a.file_date c.file_date with
  | false => rfl
  | true =>
    by_cases h1 : lexLtB b.file_date a.file_date = true
    · have h2 := lexLtB_trans _ _ _ h1 hac
      rw [hbc] at h2
      exact absurd h2 (by decide)
    · have hba : lexLtB b.file_date a.file_date = false := by
        cases hx : lexLtB b.file_date a.file_date with
        | false => rfl
        | true => exact absurd hx h1
      have heq := lexLtB_conn _ _ hab hba
      rw [heq] at hac
      rw [hac] at hbc
      exact absurd hbc (by decide)

theorem digitVal_lt_ten (c : Char) (h : isDigitC c = true) : digitVal c < 10 := by
  unfold isDigitC at h
  simp only [Bool.and_eq_true, decide_eq_true_eq] at h
  unfold digitVal
  omega

theorem matchDateAt_bounds (l : List Char) (y mo dy : Nat)
    (h : matchDateAt l = some (y, mo, dy)) : y < 10000 ∧ mo < 100 ∧ dy < 100 := by
  unfold matchDateAt at h
  split at h
  · split at h
    · rename_i hdig
      simp only [Bool.and_eq_true] at hdig
      obtain ⟨⟨⟨⟨⟨⟨⟨hy1, hy2⟩, hy3⟩, hy4⟩, hm1⟩, hm2⟩, hd1⟩, hd2⟩ := hdig
      injection h with h'
      rw [Prod.mk.injEq, Prod.mk.injEq] at h'
      obtain ⟨hey, hem, hed⟩ := h'
      have b1 := digitVal_lt_ten _ hy1
      have b2 := digitVal_lt_ten _ hy2
      have b3 := digitVal_lt_ten _ hy3
      have b4 := digitVal_lt_ten _ hy4
      have b5 := digitVal_lt_ten _ hm1
      have b6 := digitVal_lt_ten _ hm2
      have b7 := digitVal_lt_ten _ hd1
      have b8 := digitVal_lt_ten _ hd2
      omega
    · exact absurd h (by simp)
  · exact absurd h (by simp)

theorem extract_date_bounds (path : List Char) (y mo dy : Nat)
    (h : extract_date_from_path path = some (y, mo, dy)) :
    y < 10000 ∧ mo < 100 ∧ dy < 100 := by
  induction path with
  | nil => exact absurd h (by simp [extract_date_from_path])
  | cons c rest ih =>
    rw [extract_date_from_path] at h
    cases hm : matchDateAt (c :: rest) with
    | none =>
      rw [hm] at h
      exact ih h
    | some t =>
      rw [hm] at h
      have ht : t = (y, mo, dy) := Option.some.inj h
      subst ht
      exact matchDateAt_bounds _ _ _ _ hm

theorem formatDate_lexLtB_iff (y1 m1 d1 y2 m2 d2 : Nat)
    (hy1 : y1 < 10000) (hm1 : m1 < 100) (hd1 : d1 < 100)
    (hy2 : y2 < 10000) (hm2 : m2 < 100) (hd2 : d2 < 100) :
    (lexLtB (formatDate y1 m1 d1) (formatDate y2 m2 d2) = true ↔
      chronLt (y1, m1, d1) (y2, m2, d2)) := by
  have e4 : (10000 : Nat) = 10 ^ 4 := by norm_num
  have e2 : (100 : Nat) = 10 ^ 2 := by norm_num
  rw [e4] at hy1 hy2
  rw [e2] at hm1 hd1 hm2 hd2
  have h44 : (padNum 4 y1).length = (padNum 4 y2).length := by
    rw [padNum_length, padNum_length]
  have h22 : (padNum 2 m1).length = (padNum 2 m2).length := by
    rw [padNum_length, padNum_length]
  unfold formatDate
  rw [lexLtB_append_iff _ _ _ _ h44, lexLtB_cons_same,
    lexLtB_append_iff _ _ _ _ h22, lexLtB_cons_same,
    lexLtB_padNum 4 y1 y2 hy1 hy2, lexLtB_padNum 2 m1 m2 hm1 hm2,
    lexLtB_padNum 2 d1 d2 hd1 hd2, padNum_eq_iff 4 y1 y2 hy1 hy2,
    padNum_eq_iff 2 m1 m2 hm1 hm2]
  simp [chronLt]

/-- C5: for date triples as produced by the path date extractor (year below
10000, month and day below 100), byte-wise string comparison of the
zero-padded YYYY-MM-DD rendering agrees exactly with chronological
(lexicographic) order of the triples; and the search post-processing is the
date-descending stable sort of the collected matches truncated to the
requested maximum count. -/
theorem C5_date_order_and_search_sort (y1 m1 d1 y2 m2 d2 : Nat)
    (hb : y1 < 10000 ∧ m1 < 100 ∧ d1 < 100 ∧ y2 < 10000 ∧ m2 < 100 ∧ d2 < 100)
    (ms : List DeckMatch) (num : Nat) :
    (∀ path y mo dy, extract_date_from_path path = some (y, mo, dy) →
      y < 10000 ∧ mo < 100 ∧ dy < 100) ∧
    (lexLtB (formatDate y1 m1 d1) (formatDate y2 m2 d2) = true ↔
      chronLt (y1, m1, d1) (y2, m2, d2)) ∧
    List.Sorted dateGe (searchSortTrunc ms num) ∧
    (ms.insertionSort dateGe).Perm ms ∧
    searchSortTrunc ms num = (ms.insertionSort dateGe).take num ∧
    (searchSortTrunc ms num).length = min num ms.length := by
  obtain ⟨hy1, hm1, hd1, hy2, hm2, hd2⟩ := hb
  haveI ht1 : IsTotal DeckMatch dateGe := ⟨dateGe_total⟩
  haveI ht2 : IsTrans DeckMatch dateGe := ⟨dateGe_trans⟩
  refine ⟨?_, ?_, ?_, ?_, rfl, ?_⟩
  · intro path y mo dy h
    exact extract_date_bounds path y mo dy h
  · exact formatDate_lexLtB_iff y1 m1 d1 y2 m2 d2 hy1 hm1 hd1 hy2 hm2 hd2
  · unfold searchSortTrunc
    exact List.Pairwise.sublist (List.take_sublist _ _) (List.sorted_insertionSort dateGe ms)
  · exact List.perm_insertionSort dateGe ms
  · unfold searchSortTrunc
    rw [List.length_take, (List.perm_insertionSort dateGe ms).length_eq]

/-- C5 witness: the order equivalence at the concrete dates 2024-12-31 and
2025-01-01, and the sort properties on the empty match list. -/
theorem C5_witness :
    ((2024 : Nat) < 10000 ∧ (12 : Nat) < 100 ∧ (31 : Nat) < 100 ∧
      (2025 : Nat) < 10000 ∧ (1 : Nat) < 100 ∧ (1 : Nat) < 100) ∧
    ((∀ path y mo dy, extract_date_from_path path = some (y, mo, dy) →
        y < 10000 ∧ mo < 100 ∧ dy < 100) ∧
      (lexLtB (formatDate 2024 12 31) (formatDate 2025 1 1) = true ↔
        chronLt (2024, 12, 31) (2025, 1, 1)) ∧
      List.Sorted dateGe (searchSortTrunc [] 0) ∧
      (List.insertionSort dateGe []).Perm [] ∧
      searchSortTrunc [] 0 = (List.insertionSort dateGe []).take 0 ∧
      (searchSortTrunc [] 0).length = min 0 ([] : List DeckMatch).length) :=
  ⟨by norm_num,
    C5_date_order_and_search_sort 2024 12 31 2025 1 1 (by norm_num) [] 0⟩

end MtgTop
